import Mathlib

/-!
Verification of the BOTMpy chunked filter-bank spike-sorting engine
(`spikepy/nodes/spike_sorting.py`) against its natural-language
specification.  Python floating-point values are embedded as rationals
(`ℚ`); IEEE `NaN` entries of the discriminant matrix are embedded as
`none : Option ℚ`; Python exceptions are embedded as `Except` /
explicit error flags.  Functions from `botmpy.common` that are not part
of the provided sources are modelled from the specification and marked
as such in their doc comments.
-/

namespace BOTMpy

/-- The prior-related state of `BayesOptimalTemplateMatchingNode`:
`_pr_n`, `_lpr_n`, `_pr_s`, `_lpr_s`.  `none` models Python `None`, the
value all four members hold after `__init__` initialises them and before
the property setters run. -/
structure PriorState where
  prN : Option ℚ
  lprN : Option ℚ
  prS : Option ℚ
  lprS : Option ℚ
  deriving DecidableEq, Repr

/-- Embedding of `BayesOptimalTemplateMatchingNode.set_noise_prior`;  `log` abstracts
`scipy.log` (an external library function); `float(value)` is the
identity on the embedded rationals. -/
def set_noise_prior (log : ℚ → ℚ) (s : PriorState) (value : ℚ) :
    Except String PriorState :=
  if value ≤ 0 then Except.error "noise prior <= 0.0"
  else if 1 < value then Except.error "noise prior > 1.0"
  else Except.ok { s with prN := some value, lprN := some (log value) }

/-- Embedding of `BayesOptimalTemplateMatchingNode.set_spike_prior`. -/
def set_spike_prior (log : ℚ → ℚ) (s : PriorState) (value : ℚ) :
    Except String PriorState :=
  if value ≤ 0 then Except.error "spike prior <= 0.0"
  else if 1 < value then Except.error "spike prior > 1.0"
  else Except.ok { s with prS := some value, lprS := some (log value) }

/-- Run a setter on an object state: a raised `ValueError` propagates to
the caller and leaves the object state unchanged (the setters raise
before any assignment); the boolean records whether an exception was
raised. -/
def runSetter (f : PriorState → ℚ → Except String PriorState)
    (s : PriorState) (v : ℚ) : PriorState × Bool :=
  match f s v with
  | Except.error _ => (s, true)
  | Except.ok s2 => (s2, false)

/-- Abstract logarithm used by the C5 witness. -/
def logW : ℚ → ℚ := fun _ => -1

/-- Default-initialised prior state (all four members `None`) used by
the C5 witness. -/
def sW : PriorState :=
  { prN := none, lprN := none, prS := none, lprS := none }

/-- The observable processing phases of one `_execute` call. -/
inductive Phase
  | preFilter (c : ℕ)
  | filterChunk (c : ℕ)
  | postFilter (c : ℕ)
  | preSort (c : ℕ)
  | sortChunk (c : ℕ)
  | postSort (c : ℕ)
  | combineResults
  | adaptNoise
  | adaptFilterDrop
  | adaptFilterCurrent
  | adaptFilterNew
  deriving DecidableEq, Repr

/-- The per-chunk phases in the order `FilterBankSortingNode._execute`
runs them inside the chunk loop. -/
def chunkPhases (c : ℕ) : List Phase :=
  [Phase.preFilter c, Phase.filterChunk c, Phase.postFilter c,
   Phase.preSort c, Phase.sortChunk c, Phase.postSort c]

/-- The chunk loop of `FilterBankSortingNode._execute`: starting at chunk
`curr`, each pass processes the slice
`[curr * cs, min dlen ((curr + 1) * cs))` and the loop ends once
`chunk_offset + clen >= dlen`.  `fuel` makes the recursion structural;
for `cs ≥ 1` the loop body runs at most `dlen + 1` times, so callers pass
`dlen + 1` and the fuel never runs out (with `cs = 0` and `dlen > 0` the
Python loop would not terminate at all). -/
def chunkLoop (dlen cs : ℕ) : ℕ → ℕ → List Phase
  | _, 0 => []
  | curr, fuel + 1 =>
    let off := curr * cs
    let clen := min dlen ((curr + 1) * cs) - off
    chunkPhases curr ++
      (if dlen ≤ off + clen then [] else chunkLoop dlen cs (curr + 1) fuel)

/-- Phase trace of `FilterBankSortingNode._execute` on an input of length
`dlen` with chunk size `cs`: the chunk loop followed by a single
`_combine_results`. -/
def executeTrace (dlen cs : ℕ) : List Phase :=
  chunkLoop dlen cs 0 (dlen + 1) ++ [Phase.combineResults]

/-- Phase trace of `AdaptiveBayesOptimalTemplateMatchingNode._execute`:
it first calls the superclass `_execute` (all chunks plus
`_combine_results`) and only then runs `_adapt_noise`,
`_adapt_filter_drop`, `_adapt_filter_current`, `_adapt_filter_new`, in
that source order. -/
def adaptiveExecuteTrace (dlen cs : ℕ) : List Phase :=
  executeTrace dlen cs ++
    [Phase.adaptNoise, Phase.adaptFilterDrop, Phase.adaptFilterCurrent,
     Phase.adaptFilterNew]

/-- Number of chunks processed for a given data length and chunk size,
read off the execution trace. -/
def numChunks (dlen cs : ℕ) : ℕ :=
  (chunkLoop dlen cs 0 (dlen + 1)).countP fun ph =>
    match ph with
    | Phase.sortChunk _ => true
    | _ => false

/-- The discriminant matrix `self._disc`, indexed (sample, column);
`none` embeds the IEEE `NaN` sentinel that `self._disc[:] = sp.nan`
initialises every entry to. -/
abbrev OMat : Type := ℕ → ℕ → Option ℚ

/-- The inputs `_post_filter` reads: chunk length `ns`
(`self._fout.shape[0]`), the number of active filters `self.nfilter`,
the filter-output matrix `self._fout`, the log spike prior
`self._lpr_s`, and the cached cross-correlations
`self.get_xcorrs_at(i)` / `self.get_xcorrs_at(f0, f1, tau)` provided by
the external filter bank. -/
structure DiscParams where
  ns : ℕ
  nfilter : ℕ
  fout : ℕ → ℕ → ℚ
  lprS : ℚ
  xcSelf : ℕ → ℚ
  xcPair : ℕ → ℕ → ℤ → ℚ

/-- The slice assignment `M[lo:hi, c] = v` (values may be `NaN`). -/
def writeColO (M : OMat) (c lo hi : ℕ) (v : ℕ → Option ℚ) : OMat :=
  fun t c2 => if c2 = c ∧ lo ≤ t ∧ t < hi then v t else M t c2

/-- Enumeration order of the overlap channels built by `_post_filter`:
`f0` ascending, then `f1` in `f0+1 .. nfilter-1`, then `tau` in list
order; discriminant column `nfilter + k` holds the `k`-th triple, which
is exactly the `self._oc_idx` bookkeeping (`oc_idx` starts at
`self.nfilter` and increments once per triple). -/
def ocList (nf : ℕ) (taus : List ℤ) : List (ℕ × ℕ × ℤ) :=
  (List.range nf).flatMap fun f0 =>
    (List.range (nf - (f0 + 1))).flatMap fun d =>
      taus.map fun tau => (f0, f0 + 1 + d, tau)

/-- The per-filter columns of `_post_filter`: starting from the all-`NaN`
matrix, `self._disc[:, i] = self._fout[:, i] + self._lpr_s -
.5 * self.get_xcorrs_at(i)` for each `i < n`. -/
def discFilterCols (p : DiscParams) (n : ℕ) : OMat :=
  (List.range n).foldl
    (fun M i =>
      writeColO M i 0 p.ns fun t =>
        some (p.fout t i + p.lprS - p.xcSelf i / 2))
    (fun _ _ => none)

/-- The value written into overlap column `(f0, f1, tau)` at sample `t`:
`disc[t, f0] + disc[t + tau, f1] - xcorrs(f0, f1, tau)` (element `k` of
the source's slice assignment at row `t = f0_lim[0] + k` reads the `f1`
column at row `f1_lim[0] + k = t + tau`); `NaN` operands propagate. -/
def ocValue (p : DiscParams) (M : OMat) (f0 f1 : ℕ) (tau : ℤ) (t : ℕ) :
    Option ℚ :=
  match M t f0, M ((t + tau).toNat) f1 with
  | some a, some b => some (a + b - p.xcPair f0 f1 tau)
  | _, _ => none

/-- Row range of the slice assignment for an overlap channel at lag
`tau`: `f0_lim = [max(0, -tau), min(ns, ns - tau))`. -/
def ocLo (tau : ℤ) : ℕ := (max 0 (-tau)).toNat

/-- Upper bound of the overlap-channel row range. -/
def ocHi (ns : ℕ) (tau : ℤ) : ℕ := (min (ns : ℤ) ((ns : ℤ) - tau)).toNat

/-- One overlap-channel slice assignment of `_post_filter`, for the
enumerated triple `(k, (f0, f1, tau))` writing column `nfilter + k`. -/
def ocStep (p : DiscParams) (M : OMat) (e : ℕ × ℕ × ℕ × ℤ) : OMat :=
  writeColO M (p.nfilter + e.1) (ocLo e.2.2.2) (ocHi p.ns e.2.2.2)
    (ocValue p M e.2.1 e.2.2.1 e.2.2.2)

/-- Embedding of `BayesOptimalTemplateMatchingNode._post_filter`: fill the per-filter
discriminant columns, then (in overlap mode, `ovlpTaus = some taus`) add
one overlap channel per filter pair and lag value. -/
def post_filter (p : DiscParams) (ovlpTaus : Option (List ℤ)) : OMat :=
  let base := discFilterCols p p.nfilter
  match ovlpTaus with
  | none => base
  | some taus => ((ocList p.nfilter taus).enum).foldl (ocStep p) base

/-- Concrete instance of the discriminant-builder parameters used by the
C7 witness. -/
def pC7 : DiscParams :=
  { ns := 1, nfilter := 1, fout := fun _ _ => 3, lprS := 5,
    xcSelf := fun _ => 4, xcPair := fun _ _ _ => 0 }

/-- Concrete instance of the discriminant-builder parameters used by the
C6 witness: two filters, one sample, overlap lag list `[0]`. -/
def pC6 : DiscParams :=
  { ns := 1, nfilter := 2, fout := fun _ c => (c : ℚ), lprS := 0,
    xcSelf := fun _ => 0, xcPair := fun _ _ _ => 1 }

/-- The `NaN`-ignoring binary maximum, as used by `numpy.nanmax`. -/
def nmax : Option ℚ → Option ℚ → Option ℚ
  | none, b => b
  | some v, none => some v
  | some v, some w => some (max v w)

/-- Embedding of `sp.nanmax(M[t])` over columns: row maximum ignoring `NaN`. -/
def nanmaxRow (M : OMat) (t nc : ℕ) : Option ℚ :=
  (List.range nc).foldl (fun acc c => nmax acc (M t c)) none

/-- Embedding of `sp.nanmax(M)` over the whole `nr × nc` matrix; `none` (numpy:
`NaN`) when every entry is `NaN` or the matrix is empty. -/
def nanmaxAll (M : OMat) (nr nc : ℕ) : Option ℚ :=
  (List.range nr).foldl (fun acc t => nmax acc (nanmaxRow M t nc)) none

/-- The comparison `sp.nanmax(...) > x`: `NaN > x` is `False` under IEEE
comparison semantics. -/
def optGT : Option ℚ → ℚ → Bool
  | none, _ => false
  | some v, x => decide (x < v)

/-- Embedding of `sp.nanargmax` over `v 0 .. v (n - 1)`: index of the greatest
non-`NaN` entry, first occurrence on ties; `0` when all entries are
`NaN` (numpy raises there; the loop guard rules this out). -/
def nanargmaxV (v : ℕ → Option ℚ) (n : ℕ) : ℕ :=
  match (List.range n).foldl
      (fun acc i =>
        match v i with
        | none => acc
        | some x =>
          match acc with
          | none => some (i, x)
          | some iv => if iv.2 < x then some (i, x) else some iv)
      none with
  | some iv => iv.1
  | none => 0

/-- Modelled from the spec: `shifted_matrix_sub` from `botmpy.common` is
not among the provided sources.  Per §4.4 the subtrahend block `sub`
(here `subRows` rows, one column per active filter) is placed into an
otherwise-zero matrix of the shape of `ep_disc` at row offset `tau`
(the source passes `ep_t - tf + 1`), rows falling outside the epoch
being clipped. -/
def shifted_matrix_sub (sub : ℕ → ℕ → ℚ) (subRows : ℕ) (tau : ℤ) :
    ℕ → ℕ → ℚ :=
  fun t c =>
    if tau ≤ (t : ℤ) ∧ (t : ℤ) < tau + subRows then
      sub ((t : ℤ) - tau).toNat c
    else 0

/-- Squared Frobenius norm of an `nr × nc` matrix.  The source compares
Euclidean norms (`sp_la.norm(ep_fout) > sp_la.norm(ep_fout + sub)`);
both sides are non-negative and the square root is strictly monotone on
non-negative reals, so comparing squared norms is the same test and
keeps the embedding inside ℚ. -/
def frobSq (M : ℕ → ℕ → ℚ) (nr nc : ℕ) : ℚ :=
  (List.range nr).foldl
    (fun acc t =>
      (List.range nc).foldl (fun a2 c => a2 + M t c * M t c) acc)
    0

/-- Per-epoch context of the SIC branch of `_sort_chunk`: the merged
epoch `[a, b)` (`spk_ep[i]`), the filter-output slice
`ep_fout = self._fout[a:b, :]` (row `t` is sample `a + t`; the loop
never mutates it, so its norm is the norm of the original slice), the
cross-correlation tensor slice transposes
`xcorrsT c = self._xcorrs[c, :, :].T` with `xcLen` rows (filter-bank
data, external to this file's sources), the priors, the
`get_fid_for` mapping and the chunk offset. -/
structure SicParams where
  nfilter : ℕ
  tf : ℕ
  xcLen : ℕ
  lprN : ℚ
  lprS : ℚ
  a : ℕ
  b : ℕ
  epFout : ℕ → ℕ → ℚ
  xcorrsT : ℕ → ℕ → ℕ → ℚ
  fid : ℕ → ℕ
  chunkOffset : ℕ

/-- How the SIC loop for one epoch ended: the `while` condition failed,
the hard iteration cap fired, or the norm guard rejected the candidate
subtraction. -/
inductive SicExit
  | noMoreSpikes
  | capped
  | rejected
  deriving DecidableEq, Repr

/-- Observable outcome of the per-epoch SIC loop: the spikes appended to
`self.rval` (as `(filter id, global sample)` pairs, in order), the final
`niter`, whether the more-spikes-than-filters warning was emitted, the
number of iterations that reached the subtrahend computation, and the
exit kind. -/
structure SicResult where
  emitted : List (ℕ × ℤ)
  niter : ℕ
  warned : Bool
  subIters : ℕ
  exit : SicExit
  deriving DecidableEq, Repr

/-- The row pick `ep_t = sp.nanargmax(sp.nanmax(ep_disc, axis=1))`: the row of the
residual discriminant maximum. -/
def sicEpT (p : SicParams) (epDisc : OMat) : ℕ :=
  nanargmaxV (fun t => nanmaxRow epDisc t p.nfilter) (p.b - p.a)

/-- The column pick `ep_c = sp.nanargmax(ep_disc[ep_t])`: the column of the residual
discriminant maximum within row `ep_t`. -/
def sicEpC (p : SicParams) (epDisc : OMat) : ℕ :=
  nanargmaxV (fun c => epDisc (sicEpT p epDisc) c) p.nfilter

/-- The subtrahend of one SIC iteration:
`shifted_matrix_sub(sp.zeros_like(ep_disc), self._xcorrs[ep_c, :, :].T,
ep_t - self._tf + 1)`. -/
def sicSub (p : SicParams) (epDisc : OMat) : ℕ → ℕ → ℚ :=
  shifted_matrix_sub (p.xcorrsT (sicEpC p epDisc)) p.xcLen
    ((sicEpT p epDisc : ℤ) - (p.tf : ℤ) + 1)

/-- The acceptance test of one SIC iteration:
`ep_fout_norm > sp_la.norm(ep_fout + sub)`, stated on squared norms. -/
def sicAccept (p : SicParams) (epDisc : OMat) : Prop :=
  frobSq (fun t c => p.epFout t c + sicSub p epDisc t c)
      (p.b - p.a) p.nfilter <
    frobSq p.epFout (p.b - p.a) p.nfilter

instance (p : SicParams) (epDisc : OMat) : Decidable (sicAccept p epDisc) := by
  unfold sicAccept
  infer_instance

/-- The SIC `while` loop of `_sort_chunk` for one epoch: while
`sp.nanmax(ep_disc) > self._lpr_n`, increment `niter`; past
`self.nfilter` iterations warn (non-fatally), and past `2 * self.nfilter`
break; otherwise locate the argmax cell `(ep_t, ep_c)`, build the
subtrahend, and either accept it — `ep_disc += sub + self._lpr_s`,
append a spike for `get_fid_for(ep_c)` at
`spk_ep[i, 0] + ep_t + self._chunk_offset`, and iterate — or break. -/
def sic_loop (p : SicParams) (epDisc : OMat) (emitted : List (ℕ × ℤ))
    (niter : ℕ) (warned : Bool) (subIters : ℕ) : SicResult :=
  if optGT (nanmaxAll epDisc (p.b - p.a) p.nfilter) p.lprN = true then
    if h2 : 2 * p.nfilter < niter + 1 then
      { emitted := emitted, niter := niter + 1,
        warned := warned || decide (p.nfilter < niter + 1),
        subIters := subIters, exit := SicExit.capped }
    else
      if sicAccept p epDisc then
        sic_loop p
          (fun t c => (epDisc t c).map fun x => x + sicSub p epDisc t c + p.lprS)
          (emitted ++ [(p.fid (sicEpC p epDisc),
            (p.a : ℤ) + (sicEpT p epDisc : ℤ) + (p.chunkOffset : ℤ))])
          (niter + 1) (warned || decide (p.nfilter < niter + 1)) (subIters + 1)
      else
        { emitted := emitted, niter := niter + 1,
          warned := warned || decide (p.nfilter < niter + 1),
          subIters := subIters + 1, exit := SicExit.rejected }
  else
    { emitted := emitted, niter := niter, warned := warned,
      subIters := subIters, exit := SicExit.noMoreSpikes }
termination_by 2 * p.nfilter + 1 - niter
decreasing_by omega

/-- Entry into the SIC loop for one epoch: fresh residual slice, nothing
recorded, `niter = 0`, no warning yet. -/
def sic_resolve (p : SicParams) (epDisc : OMat) : SicResult :=
  sic_loop p epDisc [] 0 false 0

/-- Concrete SIC context for the C4 witness: one filter, a one-sample
epoch, zero filter output (so no subtraction can reduce the norm and the
candidate is rejected). -/
def pSicW : SicParams :=
  { nfilter := 1, tf := 1, xcLen := 1, lprN := 0, lprS := 0, a := 0, b := 1,
    epFout := fun _ _ => 0, xcorrsT := fun _ _ _ => 1, fid := fun c => c,
    chunkOffset := 0 }

/-- Concrete residual discriminant slice for the C4 witness. -/
def dSicW : OMat := fun _ _ => some 1

/-- Modelled from the spec: `matrix_argmax` from `botmpy.common` is not
among the provided sources.  Per §4.4 Strategy A it locates "the single
`(sample, column)` pair achieving the epoch's global discriminant
maximum"; `NaN` entries are ignored, ties resolve to the first cell in
row-major order, and `(0, 0)` is returned when every entry is `NaN`. -/
def matrix_argmax (M : OMat) (nr nc : ℕ) : ℕ × ℕ :=
  match ((List.range nr).flatMap fun t =>
      (List.range nc).map fun c => (t, c)).foldl
      (fun acc tc =>
        match M tc.1 tc.2 with
        | none => acc
        | some x =>
          match acc with
          | none => some (tc, x)
          | some pv => if pv.2 < x then some (tc, x) else some pv)
      none with
  | some pv => pv.1
  | none => (0, 0)

/-- Embedding of `self.rval[k].append(s)` on the spike-train mapping, modelled as a
total map from filter id to the ordered list of recorded spike times
(`_execute` initialises `rval` with an empty list per active filter id,
and `get_fid_for` returns ids from that set). -/
def appendSpike (rv : ℕ → List ℤ) (k : ℕ) (s : ℤ) : ℕ → List ℤ :=
  fun k2 => if k2 = k then rv k ++ [s] else rv k2

/-- Context of the overlap-channel branch of `_sort_chunk` for one
merged epoch: the chunk's discriminant matrix (with
`nfilter + len(ocTrips)` columns, the `k`-th overlap triple
`(f0, f1, tau)` of `self._oc_idx` in column `nfilter + k`, as built by
`_post_filter`), the `get_fid_for` mapping and the chunk offset. -/
structure OchParams where
  nfilter : ℕ
  disc : OMat
  ocTrips : List (ℕ × ℕ × ℤ)
  fid : ℕ → ℕ
  chunkOffset : ℕ

/-- The `(ep_t, ep_c)` located for epoch `[a, b)`:
`matrix_argmax(self._disc[spk_ep[i, 0]:spk_ep[i, 1]])` (row
`ep_t` still epoch-relative here; the source then adds `spk_ep[i, 0]`,
i.e. `a`). -/
def ochArgmax (p : OchParams) (a b : ℕ) : ℕ × ℕ :=
  matrix_argmax (fun t c => p.disc (a + t) c) (b - a)
    (p.nfilter + p.ocTrips.length)

/-- The overlap-channel resolution of one merged epoch `[a, b)`
(`_sort_chunk`, `self._ovlp_taus is not None` branch): one
`matrix_argmax` decision, no iteration.  A single-unit column appends
one spike for `get_fid_for(ep_c)` at `ep_t + self._chunk_offset`; an
overlap column `(f0, f1, tau)` appends one spike per constituent filter,
at `ep_t + chunk_offset` and `ep_t + tau + chunk_offset`.  Returns the
updated `rval` together with the list of appended spikes in order.  (A
column index outside both ranges would raise `KeyError` on
`self._oc_idx`; it cannot occur because `matrix_argmax` returns a column
below `nfilter + len(ocTrips)`, and is modelled as a no-op.) -/
def sort_epoch_och (p : OchParams) (a b : ℕ) (rv : ℕ → List ℤ) :
    (ℕ → List ℤ) × List (ℕ × ℤ) :=
  let tc := ochArgmax p a b
  let ep_t := tc.1 + a
  let ep_c := tc.2
  if ep_c < p.nfilter then
    let s : ℤ := (ep_t : ℤ) + (p.chunkOffset : ℤ)
    (appendSpike rv (p.fid ep_c) s, [(p.fid ep_c, s)])
  else
    match p.ocTrips[ep_c - p.nfilter]? with
    | some trip =>
      let s0 : ℤ := (ep_t : ℤ) + (p.chunkOffset : ℤ)
      let s1 : ℤ := (ep_t : ℤ) + trip.2.2 + (p.chunkOffset : ℤ)
      (appendSpike (appendSpike rv (p.fid trip.1) s0) (p.fid trip.2.1) s1,
        [(p.fid trip.1, s0), (p.fid trip.2.1, s1)])
    | none => (rv, [])

/-- Concrete single-unit instance for the C8 witness: one filter, no
overlap channels, a one-sample epoch. -/
def pOchA : OchParams :=
  { nfilter := 1, disc := fun _ _ => some 1, ocTrips := [],
    fid := fun c => c, chunkOffset := 0 }

/-- Concrete overlap instance for the C8 witness: two filters, one
overlap channel `(0, 1, 1)` in column 2, and a discriminant whose
maximum sits in that overlap column. -/
def pOchB : OchParams :=
  { nfilter := 2, disc := fun _ c => some (c : ℚ), ocTrips := [(0, 1, 1)],
    fid := fun c => c, chunkOffset := 0 }

/-- Python slice boundary resolution for `arr[lo:hi]` over an array of
`n` rows: a negative index counts from the end, then both bounds clamp
to `[0, n]`. -/
def pyIdx (n : ℕ) (i : ℤ) : ℕ :=
  if i < 0 then ((n : ℤ) + i).toNat else min i.toNat n

/-- Embedding of `ndarray.max()` over rows `[lo, hi)` and all `nc` columns: the plain
maximum, so `NaN` entries propagate (unlike `nanmax`); an empty slice is
modelled as `none` (numpy raises `ValueError` there — either way the
`>= 0.0` comparison in `check_event` does not hold). -/
def sliceMax (M : OMat) (lo hi nc : ℕ) : Option ℚ :=
  match ((List.range (hi - lo)).flatMap fun dt =>
      (List.range nc).map fun c => M (lo + dt) c) with
  | [] => none
  | x :: rest =>
    rest.foldl
      (fun acc y =>
        match acc, y with
        | some v, some w => some (max v w)
        | _, _ => none)
      x

/-- Chunk context for `_check_event`: chunk length (`self._disc` rows),
discriminant column count, `self._tf`, `self._learn_templates` (the
alignment sample), and the discriminant surface of the current chunk. -/
structure AdaptiveCtx where
  ns : ℕ
  ncols : ℕ
  tf : ℕ
  learnTemplates : ℕ
  disc : OMat

/-- Embedding of `AdaptiveBayesOptimalTemplateMatchingNode._check_event` with the
default `win_half_span=15` that `_post_sort` uses:
`cut = (learn_templates, tf - learn_templates)`,
`disc_at = ev + cut[1] - 1`, and the event counts as explained when
`self._disc[disc_at - 15:disc_at + 15, :].max() >= 0.0` — note the
hard-coded threshold `0.0`, not `self._lpr_n`. -/
def check_event (ctx : AdaptiveCtx) (ev : ℕ) : Bool :=
  let discAt : ℤ := (ev : ℤ) + ((ctx.tf : ℤ) - (ctx.learnTemplates : ℤ)) - 1
  let lo := pyIdx ctx.ns (discAt - 15)
  let hi := pyIdx ctx.ns (discAt + 15)
  match sliceMax ctx.disc lo hi ctx.ncols with
  | some m => decide ((0 : ℚ) ≤ m)
  | none => false

/-- The detection-buffer selection of `_post_sort`:
`spks_explained = [self._check_event(e) for e in self.det.events]`, then
`if len(spks[spks_explained]) > 0:
self._det_buf.extend(spks[spks_explained])`.  Under boolean-mask
indexing the waveforms extended into the buffer are exactly those at
event positions whose `_check_event` flag is `True`; returned here as
the list of selected event indices (the extracted waveforms `spks` are
positionally parallel to `self.det.events`). -/
def post_sort_buffered (ctx : AdaptiveCtx) (events : List ℕ) : List ℕ :=
  ((events.enum).filter fun ie => check_event ctx ie.2).map fun ie => ie.1

/-- Failing-input context for C1: a 40-sample chunk with a one-column
discriminant surface equal to 1 everywhere, `tf = 4`, alignment sample
1; the auxiliary detector reports a single event at sample 20. -/
def ctxC1 : AdaptiveCtx :=
  { ns := 40, ncols := 1, tf := 4, learnTemplates := 1,
    disc := fun _ _ => some 1 }

/-- Appending the spikes recorded while sorting one chunk
(`_sort_chunk` appends to `self.rval[fid]` one spike at a time, in
order). -/
def appendChunk (rv : ℕ → List ℤ) (spl : List (ℕ × ℤ)) : ℕ → List ℤ :=
  spl.foldl (fun r q => appendSpike r q.1 q.2) rv

/-- Embedding of `FilterBankSortingNode._combine_results`: each per-filter spike list
becomes an integer array (`dict_list_to_ndarray`, from `botmpy.common`)
and `correct = int(self._tf / 2)` is subtracted from every entry. -/
def combine_results (tf : ℕ) (rv : ℕ → List ℤ) : ℕ → List ℤ :=
  fun k => (rv k).map fun s => s - ((tf / 2 : ℕ) : ℤ)

/-- The spike bookkeeping of `FilterBankSortingNode._execute`: `rval` is
cleared to empty per-filter lists, the chunk loop appends each chunk's
spikes in order (`chunkSpikes c` abstracts the `(fid, global time)`
pairs `_sort_chunk` appends while sorting chunk `c`), and
`_combine_results` runs exactly once, after the loop. -/
def runSorting (tf nchunks : ℕ) (chunkSpikes : ℕ → List (ℕ × ℤ)) :
    ℕ → List ℤ :=
  combine_results tf
    ((List.range nchunks).foldl
      (fun rv c => appendChunk rv (chunkSpikes c)) (fun _ => []))

/-- Embedding of `FilterBankSortingNode._execute` as a function of the input array
`x` (rows = samples, inner lists = channels): it reads
`self._data = x[:, self._chan_set]` (numpy fancy indexing — a copy),
processes every chunk into `self.rval`, and ends with `return x` — the
very input object, into which no statement of the method writes. -/
def fbs_execute (tf cs : ℕ) (chanSet : List ℕ)
    (chunkSpikes : ℕ → List (ℕ × ℤ)) (x : List (List ℚ)) :
    (ℕ → List ℤ) × List (List ℚ) :=
  let data := x.map fun row => chanSet.filterMap fun c => row[c]?
  (runSorting tf (numChunks data.length cs) chunkSpikes, x)

/-- Embedding of `AdaptiveBayesOptimalTemplateMatchingNode._execute`: it stores
`rval = super()._execute(x)`, runs the adaptive updates, and returns
that same `rval` — the input object again. -/
def abotm_execute (tf cs : ℕ) (chanSet : List ℕ)
    (chunkSpikes : ℕ → List (ℕ × ℤ)) (x : List (List ℚ)) :
    (ℕ → List ℤ) × List (List ℚ) :=
  ((fbs_execute tf cs chanSet chunkSpikes x).1,
    (fbs_execute tf cs chanSet chunkSpikes x).2)

/-- The chunk loop emits no adaptive-controller phases: those phases come
only from the adaptive subclass after the whole loop. -/
theorem chunkLoop_count_adapt (dlen cs curr fuel : ℕ)
    (ph : Phase)
    (h : ph = Phase.adaptNoise ∨ ph = Phase.adaptFilterDrop ∨
      ph = Phase.adaptFilterCurrent ∨ ph = Phase.adaptFilterNew) :
    (chunkLoop dlen cs curr fuel).count ph = 0 := by
  induction fuel generalizing curr with
  | zero => simp [chunkLoop]
  | succ n ih =>
    have hc : (chunkPhases curr).count ph = 0 := by
      rcases h with h | h | h | h <;> subst h <;> simp [chunkPhases]
    by_cases hstop :
        dlen ≤ curr * cs + (min dlen ((curr + 1) * cs) - curr * cs)
    · simp [chunkLoop, hstop, List.count_append, hc]
    · simp [chunkLoop, hstop, List.count_append, hc, ih]

/-- Every triple enumerated by `ocList` satisfies `f0 < f1 < nf` with
`tau` drawn from the given lag list. -/
theorem ocList_mem (nf : ℕ) (taus : List ℤ) (e : ℕ × ℕ × ℤ)
    (h : e ∈ ocList nf taus) :
    e.1 < e.2.1 ∧ e.2.1 < nf ∧ e.2.2 ∈ taus := by
  rcases e with ⟨f0, f1, tau⟩
  simp only [ocList, List.mem_flatMap, List.mem_map, List.mem_range,
    Prod.mk.injEq] at h
  obtain ⟨g0, hg0, d, hd, tau2, htau, he1, he2, he3⟩ := h
  subst he1; subst he2; subst he3
  refine ⟨?_, ?_, ?_⟩ <;> simp only [Prod.fst, Prod.snd]
  · omega
  · omega
  · exact htau

/-- Unfolding of the per-filter column fold by one filter. -/
theorem discFilterCols_succ (p : DiscParams) (m : ℕ) :
    discFilterCols p (m + 1) =
      writeColO (discFilterCols p m) m 0 p.ns
        (fun t => some (p.fout t m + p.lprS - p.xcSelf m / 2)) := by
  simp only [discFilterCols, List.range_succ, List.foldl_append,
    List.foldl_cons, List.foldl_nil]

/-- Value of the per-filter column fold at an in-range cell. -/
theorem discFilterCols_at (p : DiscParams) (n i t : ℕ)
    (hi : i < n) (ht : t < p.ns) :
    discFilterCols p n t i =
      some (p.fout t i + p.lprS - p.xcSelf i / 2) := by
  induction n with
  | zero => omega
  | succ m ih =>
    rw [discFilterCols_succ]
    rcases Nat.lt_or_ge i m with hlt | hge
    · rw [writeColO]
      simp only [if_neg (by omega : ¬(i = m ∧ 0 ≤ t ∧ t < p.ns))]
      exact ih hlt
    · have him : i = m := by omega
      subst him
      rw [writeColO]
      simp [ht]

/-- The overlap-channel writes never touch columns below `nfilter`. -/
theorem ocFold_preserves_low (p : DiscParams)
    (l : List (ℕ × ℕ × ℕ × ℤ)) (M : OMat) (t c : ℕ) (hc : c < p.nfilter) :
    (l.foldl (ocStep p) M) t c = M t c := by
  induction l generalizing M with
  | nil => rfl
  | cons e rest ih =>
    rw [List.foldl_cons, ih]
    rw [ocStep, writeColO]
    simp only [if_neg (show ¬(c = p.nfilter + e.1 ∧ ocLo e.2.2.2 ≤ t ∧
      t < ocHi p.ns e.2.2.2) by intro hcon; omega)]

/-- The overlap-channel writes for enumeration indices `≥ j` never touch
columns below `nfilter + j`. -/
theorem ocFold_enumFrom_preserves (p : DiscParams) (l : List (ℕ × ℕ × ℤ))
    (j : ℕ) (M : OMat) (t c : ℕ) (hc : c < p.nfilter + j) :
    ((List.enumFrom j l).foldl (ocStep p) M) t c = M t c := by
  induction l generalizing j M with
  | nil => rfl
  | cons e rest ih =>
    rw [List.enumFrom_cons, List.foldl_cons,
      ih (j + 1) _ (by omega : c < p.nfilter + (j + 1))]
    rw [ocStep, writeColO]
    simp only [if_neg (show ¬(c = p.nfilter + (j, e).1 ∧ ocLo (j, e).2.2.2 ≤ t ∧
      t < ocHi p.ns (j, e).2.2.2) by intro hcon; omega)]

/-- Value of the overlap-channel fold at column `nfilter + j + k`: it is
the value written at step `k` for the `k`-th triple; since all writes
land in columns `≥ nfilter` while the written value reads only columns
`< nfilter`, that value is determined by any `base` agreeing with the
fold's input matrix on the low columns. -/
theorem ocFold_enumFrom_at (p : DiscParams) (l : List (ℕ × ℕ × ℤ)) (j : ℕ)
    (M base : OMat)
    (hM : ∀ t c, c < p.nfilter → M t c = base t c)
    (hlow : ∀ e ∈ l, e.1 < p.nfilter ∧ e.2.1 < p.nfilter)
    (k : ℕ) (f0 f1 : ℕ) (tau : ℤ)
    (hget : l[k]? = some (f0, f1, tau)) (t : ℕ)
    (ht1 : ocLo tau ≤ t) (ht2 : t < ocHi p.ns tau) :
    ((List.enumFrom j l).foldl (ocStep p) M) t (p.nfilter + (j + k)) =
      ocValue p base f0 f1 tau t := by
  induction l generalizing j M k with
  | nil => simp at hget
  | cons e rest ih =>
    rw [List.enumFrom_cons, List.foldl_cons]
    cases k with
    | zero =>
      simp only [List.getElem?_cons_zero, Option.some_inj] at hget
      subst hget
      rw [ocFold_enumFrom_preserves p rest (j + 1) _ t (p.nfilter + (j + 0))
        (by omega)]
      rw [ocStep, writeColO]
      simp only at ht1 ht2 ⊢
      rw [if_pos ⟨by omega, ht1, ht2⟩]
      have hf0 : (f0, f1, tau).1 < p.nfilter :=
        (hlow _ (List.mem_cons_self _ _)).1
      have hf1 : (f0, f1, tau).2.1 < p.nfilter :=
        (hlow _ (List.mem_cons_self _ _)).2
      simp only at hf0 hf1
      rw [ocValue, ocValue, hM t f0 hf0, hM _ f1 hf1]
    | succ k2 =>
      simp only [List.getElem?_cons_succ] at hget
      have harith : p.nfilter + (j + (k2 + 1)) = p.nfilter + ((j + 1) + k2) := by
        omega
      rw [harith]
      refine ih (j + 1) (ocStep p M (j, e)) ?_ ?_ k2 hget
      · intro t2 c2 hc2
        rw [ocStep, writeColO]
        simp only [if_neg (show ¬(c2 = p.nfilter + (j, e).1 ∧
          ocLo (j, e).2.2.2 ≤ t2 ∧ t2 < ocHi p.ns (j, e).2.2.2) by
            intro hcon; omega)]
        exact hM t2 c2 hc2
      · intro e2 he2
        exact hlow e2 (List.mem_cons_of_mem e he2)

/-- The per-filter columns survive the overlap-channel pass: in either
mode, `post_filter` leaves `D[t, i] = F[t, i] + log_p_s -
0.5 * xcorr_self(i)` for `i < nfilter`, `t < ns`. -/
theorem post_filter_low (p : DiscParams) (ovlpTaus : Option (List ℤ))
    (i t : ℕ) (hi : i < p.nfilter) (ht : t < p.ns) :
    post_filter p ovlpTaus t i =
      some (p.fout t i + p.lprS - p.xcSelf i / 2) := by
  cases ovlpTaus with
  | none =>
    simp only [post_filter]
    exact discFilterCols_at p p.nfilter i t hi ht
  | some taus =>
    simp only [post_filter]
    rw [ocFold_preserves_low p _ _ t i hi]
    exact discFilterCols_at p p.nfilter i t hi ht

/-- All `ocList` entries have both filter indices below `nfilter`. -/
theorem ocList_low (nf : ℕ) (taus : List ℤ) :
    ∀ e ∈ ocList nf taus, e.1 < nf ∧ e.2.1 < nf := by
  intro e he
  obtain ⟨h1, h2, _⟩ := ocList_mem nf taus e he
  exact ⟨h1.trans h2, h2⟩

/-- C7: for every active filter `i` and every sample `t` of the chunk,
the discriminant column built by `_post_filter` equals the filter output
plus the log spike prior minus half that filter's self cross-correlation:
`D[t, i] = F[t, i] + log_p_s - 0.5 * xcorr_self(i)` (written `/ 2`
below), in both no-overlap and overlap mode. -/
theorem claim_C7_per_filter_discriminant (p : DiscParams)
    (ovlpTaus : Option (List ℤ)) (i t : ℕ)
    (hi : i < p.nfilter) (ht : t < p.ns) :
    post_filter p ovlpTaus t i =
      some (p.fout t i + p.lprS - p.xcSelf i / 2) :=
  post_filter_low p ovlpTaus i t hi ht

/-- Witness for C7 at a concrete one-sample, one-filter instance. -/
theorem claim_C7_witness :
    0 < pC7.nfilter ∧ 0 < pC7.ns ∧
      post_filter pC7 none 0 0 = some (3 + 5 - 4 / 2) :=
  ⟨Nat.one_pos, Nat.one_pos,
    claim_C7_per_filter_discriminant pC7 none 0 0 Nat.one_pos Nat.one_pos⟩

/-- C6: in overlap mode, for a filter pair `(f0, f1)` whose overlap
channel at lag 0 sits in column `nfilter + k`, that column equals
`D[:, f0] + D[:, f1] - xcorr_pair(f0, f1, 0)` at every sample of its
valid range — which for lag 0 is the whole chunk `[0, ns)`; the first
two conjuncts pin down the values of `D[:, f0]` and `D[:, f1]`. -/
theorem claim_C6_overlap_lag0 (p : DiscParams) (taus : List ℤ)
    (k f0 f1 : ℕ)
    (hget : (ocList p.nfilter taus)[k]? = some (f0, f1, 0)) (t : ℕ)
    (ht : t < p.ns) :
    post_filter p (some taus) t f0 =
        some (p.fout t f0 + p.lprS - p.xcSelf f0 / 2) ∧
      post_filter p (some taus) t f1 =
        some (p.fout t f1 + p.lprS - p.xcSelf f1 / 2) ∧
      post_filter p (some taus) t (p.nfilter + k) =
        some ((p.fout t f0 + p.lprS - p.xcSelf f0 / 2) +
          (p.fout t f1 + p.lprS - p.xcSelf f1 / 2) - p.xcPair f0 f1 0) := by
  have hmem : (f0, f1, (0 : ℤ)) ∈ ocList p.nfilter taus :=
    List.mem_iff_getElem?.2 ⟨k, hget⟩
  obtain ⟨hlt, hf1, _⟩ := ocList_mem p.nfilter taus _ hmem
  simp only [Prod.fst, Prod.snd] at hlt hf1
  have hf0 : f0 < p.nfilter := hlt.trans hf1
  refine ⟨post_filter_low p (some taus) f0 t hf0 ht,
    post_filter_low p (some taus) f1 t hf1 ht, ?_⟩
  simp only [post_filter]
  have henum : (ocList p.nfilter taus).enum =
      List.enumFrom 0 (ocList p.nfilter taus) := rfl
  rw [henum]
  have hmain := ocFold_enumFrom_at p (ocList p.nfilter taus) 0
    (discFilterCols p p.nfilter) (discFilterCols p p.nfilter)
    (fun _ _ _ => rfl) (ocList_low p.nfilter taus) k f0 f1 0 hget t
    (by simp [ocLo]) (by simpa [ocHi] using ht)
  rw [Nat.zero_add] at hmain
  rw [hmain]
  have ht0 : ((t : ℤ) + 0).toNat = t := by simp
  simp only [ocValue, ht0, discFilterCols_at p p.nfilter f0 t hf0 ht,
    discFilterCols_at p p.nfilter f1 t hf1 ht]

/-- Witness for C6: with two filters and lag list `[0]` the single
overlap channel sits in column 2 and equals the sum of the two filter
discriminants minus the pair cross-correlation. -/
theorem claim_C6_witness :
    (ocList pC6.nfilter [0])[0]? = some (0, 1, 0) ∧ 0 < pC6.ns ∧
      post_filter pC6 (some [0]) 0 (pC6.nfilter + 0) =
        some ((pC6.fout 0 0 + pC6.lprS - pC6.xcSelf 0 / 2) +
          (pC6.fout 0 1 + pC6.lprS - pC6.xcSelf 1 / 2) - pC6.xcPair 0 1 0) :=
  ⟨by decide, Nat.one_pos,
    (claim_C6_overlap_lag0 pC6 [0] 0 0 1 (by decide) 0 Nat.one_pos).2.2⟩

/-- C3 (counterexample): on a 5-sample input with chunk size 3 the engine
processes two chunks, yet each adaptive update phase occurs exactly once
in the whole `_execute` call — not once per chunk — the single noise
update occurs only after the second chunk's filtering (every phase of
chunk 1, `_filter` included, precedes it), and the in-code order is
noise update, filter drop (retirement), template re-estimation
(`_adapt_filter_current`), new-unit discovery (`_adapt_filter_new`) —
not the claimed noise, re-estimation, discovery, retirement. -/
theorem claim_C3_counterexample :
    numChunks 5 3 = 2 ∧
      (adaptiveExecuteTrace 5 3).count Phase.adaptNoise = 1 ∧
      ((adaptiveExecuteTrace 5 3).takeWhile
        (fun ph => decide (ph ≠ Phase.adaptNoise))).count
          (Phase.filterChunk 1) = 1 ∧
      adaptiveExecuteTrace 5 3 =
        chunkPhases 0 ++ chunkPhases 1 ++
          [Phase.combineResults, Phase.adaptNoise, Phase.adaptFilterDrop,
           Phase.adaptFilterCurrent, Phase.adaptFilterNew] := by
  decide

/-- C3 (amended): the adaptive controller's four updates run exactly once
per `_execute` call — after every chunk has been filtered and sorted and
the results combined, never between chunks — in the fixed source order
noise-covariance update, filter retirement (`_adapt_filter_drop`),
template re-estimation (`_adapt_filter_current`), new-unit discovery
(`_adapt_filter_new`). -/
theorem claim_C3_amended (dlen cs : ℕ) :
    adaptiveExecuteTrace dlen cs =
      executeTrace dlen cs ++
        [Phase.adaptNoise, Phase.adaptFilterDrop, Phase.adaptFilterCurrent,
         Phase.adaptFilterNew] ∧
      (executeTrace dlen cs).count Phase.adaptNoise = 0 ∧
      (executeTrace dlen cs).count Phase.adaptFilterDrop = 0 ∧
      (executeTrace dlen cs).count Phase.adaptFilterCurrent = 0 ∧
      (executeTrace dlen cs).count Phase.adaptFilterNew = 0 ∧
      (adaptiveExecuteTrace dlen cs).count Phase.adaptNoise = 1 ∧
      (adaptiveExecuteTrace dlen cs).count Phase.adaptFilterDrop = 1 ∧
      (adaptiveExecuteTrace dlen cs).count Phase.adaptFilterCurrent = 1 ∧
      (adaptiveExecuteTrace dlen cs).count Phase.adaptFilterNew = 1 := by
  have key : ∀ ph : Phase,
      ph = Phase.adaptNoise ∨ ph = Phase.adaptFilterDrop ∨
        ph = Phase.adaptFilterCurrent ∨ ph = Phase.adaptFilterNew →
      (executeTrace dlen cs).count ph = 0 := by
    intro ph h
    have h1 := chunkLoop_count_adapt dlen cs 0 (dlen + 1) ph h
    have h2 : ([Phase.combineResults] : List Phase).count ph = 0 := by
      rcases h with h | h | h | h <;> subst h <;> decide
    simp only [executeTrace, List.count_append, h1, h2]
  have hN := key Phase.adaptNoise (Or.inl rfl)
  have hD := key Phase.adaptFilterDrop (Or.inr (Or.inl rfl))
  have hC := key Phase.adaptFilterCurrent (Or.inr (Or.inr (Or.inl rfl)))
  have hW := key Phase.adaptFilterNew (Or.inr (Or.inr (Or.inr rfl)))
  refine ⟨rfl, hN, hD, hC, hW, ?_, ?_, ?_, ?_⟩ <;>
    simp only [adaptiveExecuteTrace, List.count_append, hN, hD, hC, hW] <;>
    decide

/-- One-step unfolding: the `while` condition fails. -/
theorem sic_loop_noMore (p : SicParams) (epDisc : OMat)
    (emitted : List (ℕ × ℤ)) (niter : ℕ) (warned : Bool) (subIters : ℕ)
    (hcond : optGT (nanmaxAll epDisc (p.b - p.a) p.nfilter) p.lprN = false) :
    sic_loop p epDisc emitted niter warned subIters =
      { emitted := emitted, niter := niter, warned := warned,
        subIters := subIters, exit := SicExit.noMoreSpikes } := by
  rw [sic_loop]
  simp [hcond]

/-- One-step unfolding: the hard iteration cap fires. -/
theorem sic_loop_cap (p : SicParams) (epDisc : OMat)
    (emitted : List (ℕ × ℤ)) (niter : ℕ) (warned : Bool) (subIters : ℕ)
    (hcond : optGT (nanmaxAll epDisc (p.b - p.a) p.nfilter) p.lprN = true)
    (hcap : 2 * p.nfilter < niter + 1) :
    sic_loop p epDisc emitted niter warned subIters =
      { emitted := emitted, niter := niter + 1,
        warned := warned || decide (p.nfilter < niter + 1),
        subIters := subIters, exit := SicExit.capped } := by
  rw [sic_loop]
  simp only [hcond, if_true]
  rw [dif_pos hcap]

/-- One-step unfolding: the subtraction is accepted and the loop
continues on the updated residual with one more spike recorded. -/
theorem sic_loop_accept (p : SicParams) (epDisc : OMat)
    (emitted : List (ℕ × ℤ)) (niter : ℕ) (warned : Bool) (subIters : ℕ)
    (hcond : optGT (nanmaxAll epDisc (p.b - p.a) p.nfilter) p.lprN = true)
    (hcap : ¬ 2 * p.nfilter < niter + 1) (hacc : sicAccept p epDisc) :
    sic_loop p epDisc emitted niter warned subIters =
      sic_loop p
        (fun t c => (epDisc t c).map fun x => x + sicSub p epDisc t c + p.lprS)
        (emitted ++ [(p.fid (sicEpC p epDisc),
          (p.a : ℤ) + (sicEpT p epDisc : ℤ) + (p.chunkOffset : ℤ))])
        (niter + 1) (warned || decide (p.nfilter < niter + 1))
        (subIters + 1) := by
  conv_lhs => rw [sic_loop]
  simp only [hcond, if_true]
  rw [dif_neg hcap, if_pos hacc]

/-- One-step unfolding: the subtraction is rejected and the epoch's
resolution stops at once with nothing recorded in this iteration. -/
theorem sic_loop_reject (p : SicParams) (epDisc : OMat)
    (emitted : List (ℕ × ℤ)) (niter : ℕ) (warned : Bool) (subIters : ℕ)
    (hcond : optGT (nanmaxAll epDisc (p.b - p.a) p.nfilter) p.lprN = true)
    (hcap : ¬ 2 * p.nfilter < niter + 1) (hacc : ¬ sicAccept p epDisc) :
    sic_loop p epDisc emitted niter warned subIters =
      { emitted := emitted, niter := niter + 1,
        warned := warned || decide (p.nfilter < niter + 1),
        subIters := subIters + 1, exit := SicExit.rejected } := by
  rw [sic_loop]
  simp only [hcond, if_true]
  rw [dif_neg hcap, if_neg hacc]

/-- Loop invariant for the SIC bounds: entered with
`niter ≤ 2 * nfilter`, `subIters ≤ niter` and the warning flag equal to
`nfilter < niter`, the loop attempts at most `2 * nfilter` subtractions,
ends with `niter ≤ 2 * nfilter + 1`, and its warning flag is set exactly
when the final iteration count exceeds the filter count. -/
theorem sic_loop_bounds (p : SicParams) (fuel : ℕ) :
    ∀ epDisc emitted niter warned subIters,
      2 * p.nfilter + 1 - niter = fuel →
      niter ≤ 2 * p.nfilter → subIters ≤ niter →
      warned = decide (p.nfilter < niter) →
      ((sic_loop p epDisc emitted niter warned subIters).subIters
          ≤ 2 * p.nfilter ∧
        (sic_loop p epDisc emitted niter warned subIters).niter
          ≤ 2 * p.nfilter + 1 ∧
        ((sic_loop p epDisc emitted niter warned subIters).warned = true ↔
          p.nfilter <
            (sic_loop p epDisc emitted niter warned subIters).niter)) := by
  induction fuel using Nat.strong_induction_on with
  | _ fuel ih =>
    intro epDisc emitted niter warned subIters hf hn hs hw
    by_cases hcond :
        optGT (nanmaxAll epDisc (p.b - p.a) p.nfilter) p.lprN = true
    · by_cases hcap : 2 * p.nfilter < niter + 1
      · rw [sic_loop_cap p epDisc emitted niter warned subIters hcond hcap]
        subst hw
        dsimp only
        refine ⟨hs.trans hn, by omega, ?_⟩
        simp only [Bool.or_eq_true, decide_eq_true_eq]
        omega
      · by_cases hacc : sicAccept p epDisc
        · rw [sic_loop_accept p epDisc emitted niter warned subIters hcond
            hcap hacc]
          refine ih (2 * p.nfilter + 1 - (niter + 1)) (by omega) _ _
            (niter + 1) _ (subIters + 1) rfl (by omega) (by omega) ?_
          subst hw
          by_cases hlt : p.nfilter < niter
          · simp [hlt, Nat.lt_succ_of_lt hlt]
          · simp [hlt]
        · rw [sic_loop_reject p epDisc emitted niter warned subIters hcond
            hcap hacc]
          subst hw
          dsimp only
          refine ⟨by omega, by omega, ?_⟩
          simp only [Bool.or_eq_true, decide_eq_true_eq]
          omega
    · rw [sic_loop_noMore p epDisc emitted niter warned subIters
        (by simpa using hcond)]
      subst hw
      dsimp only
      refine ⟨hs.trans hn, by omega, ?_⟩
      simp only [decide_eq_true_eq]

/-- C2: for every epoch, whatever the contents of the discriminant and
filter-output slices (and of the cross-correlation tensor), the SIC
subtraction loop terminates (it is a total function here, bounded by the
source's hard cap) after at most `2 * nfilter` subtraction iterations,
with the final `niter` counter at most `2 * nfilter + 1` (the loop body
is entered once more only to hit the `break`), and the non-fatal
more-spikes-than-filters warning has been emitted exactly when the
iteration count exceeded the number of active filters — processing
having continued past the warning up to the hard cap. -/
theorem claim_C2_sic_termination (p : SicParams) (epDisc : OMat) :
    (sic_resolve p epDisc).subIters ≤ 2 * p.nfilter ∧
      (sic_resolve p epDisc).niter ≤ 2 * p.nfilter + 1 ∧
      ((sic_resolve p epDisc).warned = true ↔
        p.nfilter < (sic_resolve p epDisc).niter) :=
  sic_loop_bounds p (2 * p.nfilter + 1) epDisc [] 0 false 0
    (by omega) (by omega) (Nat.le_refl 0) (by simp)

/-- C4: in every SIC iteration that passes the `while` guard and the
hard cap, the candidate subtraction is accepted iff the Euclidean norm of
`ep_fout + sub` is strictly smaller than the norm of the epoch's original
(never-mutated) filter-output slice; on acceptance `sub + log_p_s` is
added to `ep_disc` and exactly one spike for the argmax filter `ep_c` at
`spk_ep[i,0] + ep_t + chunk_offset` is appended before iterating; on
rejection the epoch's resolution ends immediately with no spike recorded
in that iteration. -/
theorem claim_C4_sic_iteration (p : SicParams) (epDisc : OMat)
    (emitted : List (ℕ × ℤ)) (niter : ℕ) (warned : Bool) (subIters : ℕ)
    (hcond : optGT (nanmaxAll epDisc (p.b - p.a) p.nfilter) p.lprN = true)
    (hcap : ¬ 2 * p.nfilter < niter + 1) :
    (sicAccept p epDisc →
      sic_loop p epDisc emitted niter warned subIters =
        sic_loop p
          (fun t c =>
            (epDisc t c).map fun x => x + sicSub p epDisc t c + p.lprS)
          (emitted ++ [(p.fid (sicEpC p epDisc),
            (p.a : ℤ) + (sicEpT p epDisc : ℤ) + (p.chunkOffset : ℤ))])
          (niter + 1) (warned || decide (p.nfilter < niter + 1))
          (subIters + 1)) ∧
    (¬ sicAccept p epDisc →
      sic_loop p epDisc emitted niter warned subIters =
        { emitted := emitted, niter := niter + 1,
          warned := warned || decide (p.nfilter < niter + 1),
          subIters := subIters + 1, exit := SicExit.rejected }) :=
  ⟨fun hacc =>
    sic_loop_accept p epDisc emitted niter warned subIters hcond hcap hacc,
  fun hacc =>
    sic_loop_reject p epDisc emitted niter warned subIters hcond hcap hacc⟩

/-- Witness for C4 at a concrete instance taking the rejection branch:
the discriminant maximum 1 exceeds the noise threshold 0, the cap is not
hit, the norm guard rejects (adding the subtrahend to a zero
filter-output slice cannot shrink its norm), and the loop ends at once
with nothing emitted. -/
theorem claim_C4_witness :
    optGT (nanmaxAll dSicW (pSicW.b - pSicW.a) pSicW.nfilter) pSicW.lprN
        = true ∧
      ¬ 2 * pSicW.nfilter < 0 + 1 ∧
      ¬ sicAccept pSicW dSicW ∧
      sic_loop pSicW dSicW [] 0 false 0 =
        { emitted := [], niter := 1,
          warned := false || decide (pSicW.nfilter < 0 + 1),
          subIters := 1, exit := SicExit.rejected } :=
  have hrej : ¬ sicAccept pSicW dSicW := by
    norm_num [sicAccept, pSicW, dSicW, frobSq, sicSub, sicEpC, sicEpT,
      shifted_matrix_sub, nanargmaxV, nanmaxRow, nmax, List.range_succ]
  ⟨by decide, by decide, hrej,
    (claim_C4_sic_iteration pSicW dSicW [] 0 false 0 (by decide)
      (by decide)).2 hrej⟩

/-- C8: in overlap-channel resolution, every merged epoch gets exactly
one assignment decision and no iteration: if the discriminant maximum's
column is an original filter column, exactly one spike is appended — for
that filter, at the maximising sample (epoch start and chunk offset
applied); if it is the overlap-pair column for `(f0, f1, tau)`, exactly
two spikes are appended — `f0` at the base sample and `f1` at
base `+ tau` — and `rval` changes in no other way. -/
theorem claim_C8_och_epoch (p : OchParams) (a b : ℕ) (rv : ℕ → List ℤ)
    (f0 f1 : ℕ) (tau : ℤ) :
    ((ochArgmax p a b).2 < p.nfilter →
      (sort_epoch_och p a b rv).2 =
          [(p.fid (ochArgmax p a b).2,
            (((ochArgmax p a b).1 + a : ℕ) : ℤ) + (p.chunkOffset : ℤ))] ∧
        (sort_epoch_och p a b rv).1 =
          appendSpike rv (p.fid (ochArgmax p a b).2)
            ((((ochArgmax p a b).1 + a : ℕ) : ℤ) + (p.chunkOffset : ℤ))) ∧
    (¬ (ochArgmax p a b).2 < p.nfilter →
      p.ocTrips[(ochArgmax p a b).2 - p.nfilter]? = some (f0, f1, tau) →
      (sort_epoch_och p a b rv).2 =
          [(p.fid f0,
            (((ochArgmax p a b).1 + a : ℕ) : ℤ) + (p.chunkOffset : ℤ)),
           (p.fid f1,
            (((ochArgmax p a b).1 + a : ℕ) : ℤ) + tau + (p.chunkOffset : ℤ))] ∧
        (sort_epoch_och p a b rv).1 =
          appendSpike
            (appendSpike rv (p.fid f0)
              ((((ochArgmax p a b).1 + a : ℕ) : ℤ) + (p.chunkOffset : ℤ)))
            (p.fid f1)
            ((((ochArgmax p a b).1 + a : ℕ) : ℤ) + tau +
              (p.chunkOffset : ℤ))) := by
  constructor
  · intro hlt
    simp only [sort_epoch_och]
    rw [if_pos hlt]
    exact ⟨rfl, rfl⟩
  · intro hge hget
    simp only [sort_epoch_och]
    rw [if_neg hge, hget]
    exact ⟨rfl, rfl⟩

/-- Witness for C8: the single-unit branch emits exactly one spike and
the overlap branch exactly two, at base and base `+ tau`. -/
theorem claim_C8_witness :
    (ochArgmax pOchA 0 1).2 < pOchA.nfilter ∧
      (sort_epoch_och pOchA 0 1 (fun _ => [])).2 = [(0, 0)] ∧
      ¬ (ochArgmax pOchB 0 1).2 < pOchB.nfilter ∧
      pOchB.ocTrips[(ochArgmax pOchB 0 1).2 - pOchB.nfilter]? =
        some (0, 1, 1) ∧
      (sort_epoch_och pOchB 0 1 (fun _ => [])).2 = [(0, 0), (1, 1)] := by
  refine ⟨by decide, ?_, by decide, by decide, ?_⟩
  · rw [((claim_C8_och_epoch pOchA 0 1 (fun _ => []) 0 0 0).1 (by decide)).1]
    decide
  · rw [((claim_C8_och_epoch pOchB 0 1 (fun _ => []) 0 1 1).2 (by decide)
      (by decide)).1]
    decide

set_option maxRecDepth 8000 in
/-- C1 evaluated at the failing input: the event at sample 20 is
*explained* — the discriminant maximum over its window
`[disc_at - 15, disc_at + 15) = [7, 37)` is `1 ≥ 0`, hence also `≥` the
log noise prior `log(1e0) = 0` of the default configuration — yet
`_post_sort` selects exactly this event's waveform for the detection
buffer, because `spks[spks_explained]` indexes with the un-negated
explained flags.  The claim (and spec §4.6.3) requires the opposite:
buffer only unexplained waveforms. -/
theorem claim_C1_failing_input :
    check_event ctxC1 20 = true ∧
      sliceMax ctxC1.disc 7 37 ctxC1.ncols = some 1 ∧
      ((0 : ℚ) ≤ 1) ∧
      post_sort_buffered ctxC1 [20] = [0] := by
  refine ⟨by decide, by decide, by norm_num, by decide⟩

/-- Pointwise effect of appending one chunk's spike list. -/
theorem appendChunk_at (rv : ℕ → List ℤ) (spl : List (ℕ × ℤ)) (k : ℕ) :
    appendChunk rv spl k =
      rv k ++ (spl.filterMap fun q => if q.1 = k then some q.2 else none) := by
  induction spl generalizing rv with
  | nil => simp [appendChunk]
  | cons q rest ih =>
    show appendChunk (appendSpike rv q.1 q.2) rest k = _
    rw [ih]
    by_cases hq : q.1 = k
    · subst hq
      simp [appendSpike, List.filterMap_cons]
    · simp [appendSpike, hq, Ne.symm hq, List.filterMap_cons]

/-- Pointwise effect of the whole chunk loop on `rval`. -/
theorem chunkFold_at (chunkSpikes : ℕ → List (ℕ × ℤ)) (l : List ℕ)
    (rv : ℕ → List ℤ) (k : ℕ) :
    (l.foldl (fun r c => appendChunk r (chunkSpikes c)) rv) k =
      rv k ++ ((l.flatMap chunkSpikes).filterMap
        fun q => if q.1 = k then some q.2 else none) := by
  induction l generalizing rv with
  | nil => simp
  | cons c rest ih =>
    rw [List.foldl_cons, ih, appendChunk_at]
    simp [List.filterMap_append]

/-- C9: after all chunks are processed, each filter's entry of `rval` is
the concatenation, in chunk order, of that filter's recorded spike
times, with `⌊tf/2⌋` subtracted from every entry exactly once — the same
correction uniformly for all filters. -/
theorem claim_C9_combine_results (tf nchunks : ℕ)
    (chunkSpikes : ℕ → List (ℕ × ℤ)) (k : ℕ) :
    runSorting tf nchunks chunkSpikes k =
      (((List.range nchunks).flatMap chunkSpikes).filterMap
        fun q => if q.1 = k then some q.2 else none).map
        fun s => s - ((tf / 2 : ℕ) : ℤ) := by
  simp only [runSorting, combine_results]
  rw [chunkFold_at]
  simp

/-- C10: both `_execute` methods return precisely the input array they
were given — channels outside the configured channel subset included —
so sorting results reach callers only through the `rval` mapping. -/
theorem claim_C10_execute_returns_input (tf cs : ℕ) (chanSet : List ℕ)
    (chunkSpikes : ℕ → List (ℕ × ℤ)) (x : List (List ℚ)) :
    (fbs_execute tf cs chanSet chunkSpikes x).2 = x ∧
      (abotm_execute tf cs chanSet chunkSpikes x).2 = x :=
  ⟨rfl, rfl⟩

/-- C5: setting the noise prior — and likewise the spike prior — to a
value `v ≤ 0` or `v > 1` raises `ValueError` from the setter, and the
failed call leaves the stored prior and its stored logarithm unchanged
(the setters raise before assigning); for `v ∈ (0, 1]` the setter stores
`float(v)` together with `log(v)` and does not raise. -/
theorem claim_C5_prior_setters (log : ℚ → ℚ) (s : PriorState) (v : ℚ) :
    ((v ≤ 0 ∨ 1 < v) →
      runSetter (set_noise_prior log) s v = (s, true) ∧
        runSetter (set_spike_prior log) s v = (s, true)) ∧
    (0 < v → v ≤ 1 →
      runSetter (set_noise_prior log) s v =
          ({ s with prN := some v, lprN := some (log v) }, false) ∧
        runSetter (set_spike_prior log) s v =
          ({ s with prS := some v, lprS := some (log v) }, false)) := by
  constructor
  · rintro (h | h)
    · constructor <;>
        simp [runSetter, set_noise_prior, set_spike_prior, h]
    · have h0 : ¬ v ≤ 0 := by linarith
      constructor <;>
        simp [runSetter, set_noise_prior, set_spike_prior, h, h0]
  · intro h0 h1
    constructor <;>
      simp [runSetter, set_noise_prior, set_spike_prior, not_le.mpr h0,
        not_lt.mpr h1]

/-- Witness for C5: `v = 2` raises and leaves the default-initialised
state untouched; `v = 1/2` is accepted and stored with its logarithm. -/
theorem claim_C5_witness :
    ((2 : ℚ) ≤ 0 ∨ 1 < (2 : ℚ)) ∧
      runSetter (set_noise_prior logW) sW 2 = (sW, true) ∧
      (0 : ℚ) < 1 / 2 ∧ (1 / 2 : ℚ) ≤ 1 ∧
      runSetter (set_spike_prior logW) sW (1 / 2) =
        ({ sW with prS := some (1 / 2), lprS := some (logW (1 / 2)) },
          false) :=
  ⟨Or.inr (by norm_num),
    ((claim_C5_prior_setters logW sW 2).1 (Or.inr (by norm_num))).1,
    by norm_num, by norm_num,
    ((claim_C5_prior_setters logW sW (1 / 2)).2 (by norm_num)
      (by norm_num)).2⟩

end BOTMpy

